import Mathlib

/-!
# Verification of the Troop server (`src/server.py`)

A shallow embedding of the Troop collaborative-editing server's data model
and operations, together with theorems settling the specification claims.

Python strings are modelled as `List Char`, Python ints as `Int` (or `Nat`
where the source value is manifestly non-negative), Python dicts keyed by
client id as insertion-ordered association lists `List (Int × Client)`
(matching Python dict iteration order), and side effects (socket sends,
queue puts, history clearing) as explicit event traces.
-/

namespace Troop

/-- Modelled from the spec: the peer-tag alphabet maps id `i` to character
`i+1` (character 0 is reserved for "no author").  The function
`get_peer_char` lives in `utils.py`, which is not part of the provided
source; we model the fixed alphabet as consecutive character codes, so id
`i` is tagged by the character with code `i+1`. -/
def get_peer_char (i : Int) : Char := Char.ofNat (i + 1).toNat

/-- Modelled from the spec: inverse direction of the peer-tag alphabet,
`utils.get_peer_id_from_char`; the character with code `n` names peer
`n - 1`. -/
def get_peer_id_from_char (c : Char) : Int := (c.toNat : Int) - 1

theorem get_peer_char_id (c : Char) : get_peer_char (get_peer_id_from_char c) = c := by
  simp [get_peer_char, get_peer_id_from_char, Char.ofNat_toNat]

theorem get_peer_id_from_char_inj {a b : Char}
    (h : get_peer_id_from_char a = get_peer_id_from_char b) : a = b := by
  simp only [get_peer_id_from_char, sub_left_inj, Nat.cast_inj] at h
  exact Char.ext (UInt32.ext h)

/-- The accumulator loop of `TroopServer.get_client_ranges`
(`server.py:160-171`): walk the annotation string keeping the current run
character `p` and its length `count`; emit a `(peer_id, run_length)` pair
whenever the character changes, and flush the final run (the source guards
the flush with `count > 0`). -/
def rangesLoop : List Char → Char → Nat → List (Int × Nat)
  | [], p, count => if 0 < count then [(get_peer_id_from_char p, count)] else []
  | c :: rest, p, count =>
      if c ≠ p then (get_peer_id_from_char p, count) :: rangesLoop rest c 1
      else rangesLoop rest p (count + 1)

/-- `TroopServer.get_client_ranges` (`server.py:155-172`): run-length
encode the peer-annotation string into `(peer_id, run_length)` pairs. -/
def get_client_ranges (ptd : List Char) : List (Int × Nat) :=
  match ptd with
  | [] => []
  | c :: rest => rangesLoop rest c 1

/-- Sum of the run lengths of a run-length encoding. -/
def sumLens (l : List (Int × Nat)) : Nat := (l.map Prod.snd).sum

/-- Expand a run-length encoding back into the annotation string it
denotes: each `(peer_id, run_length)` pair becomes `run_length` copies of
that peer's tag character. -/
def expandRanges (l : List (Int × Nat)) : List Char :=
  l.flatMap (fun p => List.replicate p.2 (get_peer_char p.1))

theorem sumLens_rangesLoop (rest : List Char) :
    ∀ p count, sumLens (rangesLoop rest p count) = count + rest.length := by
  induction rest with
  | nil =>
      intro p count
      by_cases h : 0 < count
      · simp [rangesLoop, h, sumLens]
      · simp [rangesLoop, h, sumLens, Nat.eq_zero_of_not_pos h]
  | cons c rest ih =>
      intro p count
      by_cases h : c = p
      · rw [rangesLoop, if_neg (by simp [h])]
        rw [ih]
        simp only [List.length_cons]
        omega
      · rw [rangesLoop, if_pos h]
        simp only [sumLens, List.map_cons, List.sum_cons]
        have hr := ih c 1
        simp only [sumLens] at hr
        rw [hr]
        simp only [List.length_cons]
        omega

theorem expandRanges_rangesLoop (rest : List Char) :
    ∀ p count, expandRanges (rangesLoop rest p count) = List.replicate count p ++ rest := by
  induction rest with
  | nil =>
      intro p count
      by_cases h : 0 < count
      · simp [rangesLoop, h, expandRanges, get_peer_char_id]
      · simp [rangesLoop, h, expandRanges, Nat.eq_zero_of_not_pos h]
  | cons c rest ih =>
      intro p count
      by_cases h : c = p
      · subst h
        rw [rangesLoop, if_neg (by simp)]
        rw [ih]
        rw [List.replicate_succ' count c]
        simp
      · rw [rangesLoop, if_pos h]
        simp only [expandRanges, List.flatMap_cons] at *
        rw [ih c 1]
        simp [get_peer_char_id]

theorem rangesLoop_head (rest : List Char) :
    ∀ p count, 0 < count →
      ∃ n, (rangesLoop rest p count).head? = some (get_peer_id_from_char p, n) := by
  induction rest with
  | nil =>
      intro p count hc
      exact ⟨count, by simp [rangesLoop, hc]⟩
  | cons c rest ih =>
      intro p count hc
      by_cases h : c = p
      · subst h
        rw [rangesLoop, if_neg (by simp)]
        exact ih c (count + 1) (Nat.succ_pos _)
      · rw [rangesLoop, if_pos h]
        exact ⟨count, rfl⟩

theorem chain_rangesLoop (rest : List Char) :
    ∀ p count, List.Chain' (fun a b : Int × Nat => a.1 ≠ b.1) (rangesLoop rest p count) := by
  induction rest with
  | nil =>
      intro p count
      by_cases h : 0 < count <;> simp [rangesLoop, h]
  | cons c rest ih =>
      intro p count
      by_cases h : c = p
      · subst h
        rw [rangesLoop, if_neg (by simp)]
        exact ih c (count + 1)
      · rw [rangesLoop, if_pos h]
        rw [List.chain'_cons']
        refine ⟨?_, ih c 1⟩
        intro b hb
        obtain ⟨n, hn⟩ := rangesLoop_head rest c 1 Nat.one_pos
        rw [hn] at hb
        cases hb
        intro hpc
        exact h (get_peer_id_from_char_inj hpc).symm

/-- **C6.** `get_client_ranges` returns a run-length encoding covering the
entire annotation string: the run lengths sum to its length, adjacent runs
carry distinct peer ids, expanding each `(peer_id, run_length)` pair back
to `run_length` copies of that peer's tag reconstructs the annotation
string, and the empty annotation yields the empty list. -/
theorem get_client_ranges_rle (ptd : List Char) :
    sumLens (get_client_ranges ptd) = ptd.length ∧
    List.Chain' (fun a b : Int × Nat => a.1 ≠ b.1) (get_client_ranges ptd) ∧
    expandRanges (get_client_ranges ptd) = ptd ∧
    get_client_ranges ([] : List Char) = [] := by
  refine ⟨?_, ?_, ?_, rfl⟩
  · cases ptd with
    | nil => simp [get_client_ranges, sumLens]
    | cons c rest =>
        have h1 : get_client_ranges (c :: rest) = rangesLoop rest c 1 := rfl
        rw [h1, sumLens_rangesLoop]
        simp only [List.length_cons]
        omega
  · cases ptd with
    | nil => simp [get_client_ranges]
    | cons c rest => exact chain_rangesLoop rest c 1
  · cases ptd with
    | nil => simp [get_client_ranges, expandRanges]
    | cons c rest => simp [get_client_ranges, expandRanges_rangesLoop]

/-! ## Server state

`Client` embeds the Python `Client` class (`server.py:571-611`); the
registry `clients` is Python's insertion-ordered dict from id to `Client`,
modelled as an association list. -/

/-- One text-operation step as stored in the Python heterogeneous ops
list (`message["operation"]`): an `Int` `n ≥ 0` retains `n` characters, an
`Int` `n < 0` deletes `-n` characters, a string inserts itself. -/
inductive Step where
  | num (n : Int)
  | str (s : List Char)
deriving DecidableEq

/-- The `Client` record (`server.py:571-588`): address parts, id, display
name and cursor index. -/
structure Client where
  hostname : String
  port : Nat
  address : String × Nat
  id : Int
  name : String
  index : Int
deriving DecidableEq

/-- The `Client.__init__` constructor (`server.py:573-588`). -/
def Client.make (address : String × Nat) (id_num : Int) (name : String) : Client :=
  { hostname := address.1, port := address.2, address := address,
    id := id_num, name := name, index := 0 }

/-- The mutable fields of `TroopServer` that the claims concern:
document, peer-tag string, revision backend (list of stored operations),
client registry, acknowledgement-barrier state, id-allocation counters,
and the stored password digest. -/
structure ServerState where
  document : List Char
  peer_tag_doc : List Char
  backend : List (List Step)
  clients : List (Int × Client)
  waiting_for_ack : Bool
  acknowledged_clients : List Int
  last_id : Int
  max_id : Int
  password_digest : String
deriving DecidableEq

/-- Python `dict.values()` in insertion order. -/
def dictValues (d : List (Int × Client)) : List Client := d.map Prod.snd

/-- Python `k in dict` on the registry. -/
def dictContains (d : List (Int × Client)) (k : Int) : Bool :=
  d.any (fun p => p.1 == k)

/-- Python `del dict[k]` on the registry. -/
def dictErase (d : List (Int × Client)) (k : Int) : List (Int × Client) :=
  d.filter (fun p => p.1 != k)

/-- Python `dict[k] = v`: replace in place when the key exists, else
append (insertion order). -/
def dictInsert (d : List (Int × Client)) (k : Int) (v : Client) : List (Int × Client) :=
  if dictContains d k then d.map (fun p => if p.1 == k then (k, v) else p)
  else d ++ [(k, v)]

/-- Python `list(range(a, b))` over machine integers. -/
def intRange (a b : Int) : List Int :=
  (List.range (b - a).toNat).map (fun i => a + i)

/-- `TroopServer.get_next_id` (`server.py:233-244`).  Faithful to the
source's `for … else` construct: the loop over the candidate ids contains
no `break`, so the loop assigns `self.last_id = n` for *every* free `n`
(leaving the last one) and then the `else` clause runs unconditionally,
returning `-2`.  Returns the updated state and the returned id. -/
def get_next_id (st : ServerState) : ServerState × Int :=
  if st.last_id < st.max_id then
    ({ st with last_id := st.last_id + 1 }, st.last_id + 1)
  else
    let scan := intRange st.last_id st.max_id ++ intRange 0 st.last_id
    let free := scan.filter (fun n => !(dictContains st.clients n))
    ({ st with last_id := (free.getLast?).getD st.last_id }, -2)

/-- `TroopServer.wait_for_ack` (`server.py:251-255`). -/
def wait_for_ack (st : ServerState) : ServerState :=
  { st with waiting_for_ack := true, acknowledged_clients := [] }

/-- `TroopServer.connect_ack` (`server.py:257-264`): append the sender to
the acknowledged list; once every registered id is acknowledged, drop the
barrier and clear the list. -/
def connect_ack (st : ServerState) (src_id : Int) : ServerState :=
  let acked := st.acknowledged_clients ++ [src_id]
  if (st.clients.map Prod.fst).all (fun cid => acked.contains cid) then
    { st with waiting_for_ack := false, acknowledged_clients := [] }
  else
    { st with acknowledged_clients := acked }

/-- `TroopServer.clear_history` (`server.py:246-249`): replace the backend
with a fresh (empty) one; nothing else changes. -/
def clear_history (st : ServerState) : ServerState :=
  { st with backend := [] }

/-- Python `"{:04d}".format(n)`: decimal, zero-padded to overall width 4,
the sign counting toward the width. -/
def format04 (n : Int) : String :=
  if n < 0 then
    let digits := toString (-n).toNat
    "-" ++ ⟨List.replicate (3 - digits.length) '0'⟩ ++ digits
  else
    let digits := toString n.toNat
    (⟨List.replicate (4 - digits.length) '0'⟩ : String) ++ digits

/-- `TroopRequestHandler.authenticate` (`server.py:389-413`): compare the
supplied password string to the server digest; on match allocate the next
id, on mismatch set the id to `-1`; either way reply with the id formatted
by `"{:04d}"`.  Returns (updated server state, `client_id`, reply sent on
the socket). -/
def authenticate (st : ServerState) (password : String) : ServerState × Int × String :=
  if password == st.password_digest then
    let r := get_next_id st
    (r.1, r.2, format04 r.2)
  else
    (st, -1, format04 (-1))

/-- `TroopRequestHandler.not_authenticated` (`server.py:415-416`): the
handler returns (does not proceed) exactly when the id replied by
`authenticate` is negative. -/
def not_authenticated (st : ServerState) (password : String) : Bool :=
  decide ((authenticate st password).2.1 < 0)

/-- A server state whose id counter is exhausted (`last_id = max_id = 3`)
while no client at all is registered, so every id is free. -/
def fullCounterState : ServerState :=
  { document := [], peer_tag_doc := [], backend := [], clients := [],
    waiting_for_ack := false, acknowledged_clients := [], last_id := 3,
    max_id := 3, password_digest := "d" }

/-- **C1** (counterexample to the claim; the code contradicts its own
docstring).  At a state where the id counter has reached the maximum but
*no* id is registered (the registry is empty, so the scan finds free ids),
`get_next_id` still returns `-2`: the `for … else` clause at
`server.py:239-243` runs unconditionally because the loop body contains no
`break`, so the scan's result is never returned. -/
theorem get_next_id_overflow_always_minus_two :
    (get_next_id fullCounterState).2 = -2 ∧
    fullCounterState.last_id = fullCounterState.max_id ∧
    fullCounterState.clients = [] ∧
    dictContains fullCounterState.clients 0 = false := by
  exact ⟨rfl, rfl, rfl, rfl⟩

/-- **C4.** `connect_ack` appends the sender's id to the acknowledged
list; afterwards `waiting_for_ack` is `false` exactly when every id
registered in `clients` occurs in the extended acknowledged list, the list
being cleared when the barrier releases and keeping the appended entry
otherwise. -/
theorem connect_ack_spec (st : ServerState) (src : Int)
    (h : st.waiting_for_ack = true) :
    ((connect_ack st src).waiting_for_ack = false ↔
      ∀ cid ∈ st.clients.map Prod.fst, cid ∈ st.acknowledged_clients ++ [src]) ∧
    ((connect_ack st src).waiting_for_ack = false →
      (connect_ack st src).acknowledged_clients = []) ∧
    ((connect_ack st src).waiting_for_ack = true →
      (connect_ack st src).acknowledged_clients = st.acknowledged_clients ++ [src]) := by
  by_cases hall : (st.clients.map Prod.fst).all
      (fun cid => (st.acknowledged_clients ++ [src]).contains cid)
  · have hc : connect_ack st src =
        { st with waiting_for_ack := false, acknowledged_clients := [] } := by
      simp only [connect_ack, hall, if_true]
    rw [hc]
    refine ⟨?_, fun _ => rfl, fun hcontra => by simp at hcontra⟩
    simp only [true_iff, eq_self_iff_true]
    have := List.all_eq_true.mp hall
    intro cid hcid
    simpa using this cid hcid
  · have hc : connect_ack st src =
        { st with acknowledged_clients := st.acknowledged_clients ++ [src] } := by
      simp only [connect_ack]
      rw [if_neg hall]
    rw [hc]
    refine ⟨?_, ?_, fun _ => rfl⟩
    · simp only [h]
      constructor
      · intro hfalse; exact absurd hfalse (by simp)
      · intro hmem
        exact absurd (List.all_eq_true.mpr (by intro cid hcid; simpa using hmem cid hcid)) hall
    · intro hfalse
      rw [h] at hfalse
      exact absurd hfalse (by simp)

/-- A state at the acknowledgement barrier with a single registered client
(id `0`) and an empty acknowledged list. -/
def ackState : ServerState :=
  { document := [], peer_tag_doc := [], backend := [],
    clients := [(0, Client.make ("a", 1) 0 "n")],
    waiting_for_ack := true, acknowledged_clients := [], last_id := 0,
    max_id := 3, password_digest := "d" }

/-- Witness for `connect_ack_spec` at a concrete state: the only
registered client acknowledges, so the barrier releases and the
acknowledged list is cleared. -/
theorem connect_ack_spec_witness :
    (connect_ack ackState 0).waiting_for_ack = false ∧
    (connect_ack ackState 0).acknowledged_clients = [] := by
  have h := connect_ack_spec ackState 0 rfl
  have hrel : (connect_ack ackState 0).waiting_for_ack = false :=
    (h.1).mpr (by decide)
  exact ⟨hrel, h.2.1 hrel⟩

/-- **C7.** `authenticate`: a wrong password yields id `-1` and the exact
4-character reply `"-001"`; a matching password yields the id freshly
allocated by `get_next_id` and replies with it in signed zero-padded
width-4 decimal; and the handler proceeds past authentication
(`not_authenticated` is `false`) exactly when the returned id is
non-negative. -/
theorem authenticate_spec (st : ServerState) (pw : String) :
    (pw ≠ st.password_digest →
      (authenticate st pw).2.1 = -1 ∧ (authenticate st pw).2.2 = "-001") ∧
    (pw = st.password_digest →
      (authenticate st pw).2.1 = (get_next_id st).2 ∧
      (authenticate st pw).2.2 = format04 (get_next_id st).2) ∧
    (not_authenticated st pw = false ↔ 0 ≤ (authenticate st pw).2.1) := by
  refine ⟨?_, ?_, ?_⟩
  · intro hne
    have hb : (pw == st.password_digest) = false := by
      simpa using hne
    refine ⟨by simp [authenticate, hb], ?_⟩
    simp only [authenticate, hb, Bool.false_eq_true, if_false]
    rfl
  · intro heq
    have hb : (pw == st.password_digest) = true := by simpa using heq
    exact ⟨by simp [authenticate, hb], by simp [authenticate, hb]⟩
  · simp [not_authenticated, Int.not_lt]

/-- A fresh server state (no clients yet, counter at `-1`) with password
digest `"s3cret"`. -/
def authState : ServerState :=
  { document := [], peer_tag_doc := [], backend := [], clients := [],
    waiting_for_ack := false, acknowledged_clients := [], last_id := -1,
    max_id := 3, password_digest := "s3cret" }

/-- Witness for `authenticate_spec` at concrete inputs: a wrong password
is answered with `"-001"`, the right one with the first allocated id `0`. -/
theorem authenticate_spec_witness :
    (authenticate authState "wrong").2.2 = "-001" ∧
    (authenticate authState "s3cret").2.1 = 0 := by
  refine ⟨((authenticate_spec authState "wrong").1 (by decide)).2, ?_⟩
  have h := ((authenticate_spec authState "s3cret").2.1 rfl).1
  rw [h]
  rfl

/-! ## Text-operation application (claim C5)

The application semantics of `TextOperation` live in
`ot/text_operation.py`, which is not part of the provided source; they are
modelled from the spec (§3, §4.1, §6). -/

/-- Base length contributed by one step: retain and delete counts consume
input characters, inserts consume none. -/
def stepBaseLen : Step → Nat
  | .num n => if 0 ≤ n then n.toNat else (-n).toNat
  | .str _ => 0

/-- Target length contributed by one step: retains and inserts produce
output characters, deletes produce none. -/
def stepTargetLen : Step → Nat
  | .num n => if 0 ≤ n then n.toNat else 0
  | .str s => s.length

/-- Base length of an operation: required length of the input document. -/
def baseLen (ops : List Step) : Nat := (ops.map stepBaseLen).sum

/-- Target length of an operation: length of the output document. -/
def targetLen (ops : List Step) : Nat := (ops.map stepTargetLen).sum

/-- Modelled from the spec: `TextOperation.__call__` / `apply(op, doc)`
(`ot/text_operation.py`, not under `src/`).  Walks the steps: a retain
`n ≥ 0` copies the next `n` characters, a negative number deletes the next
`-n`, a string inserts itself; application fails (`none`) when the
operation's base length does not match the document length. -/
def applyOp : List Step → List Char → Option (List Char)
  | [], doc => if doc.isEmpty then some [] else none
  | Step.num n :: rest, doc =>
      if 0 ≤ n then
        if n.toNat ≤ doc.length then
          (applyOp rest (doc.drop n.toNat)).map (fun t => doc.take n.toNat ++ t)
        else none
      else
        if (-n).toNat ≤ doc.length then applyOp rest (doc.drop (-n).toNat) else none
  | Step.str s :: rest, doc => (applyOp rest doc).map (fun t => s ++ t)

/-- The derived peer-tag operation of `TroopServer.handle_operation`
(`server.py:195`): `get_peer_char(src_id) * len(val) if isinstance(val,
str) else val` for each step of the transformed op. -/
def peerOps (src_id : Int) (ops : List Step) : List Step :=
  ops.map (fun s => match s with
    | .str v => .str (List.replicate v.length (get_peer_char src_id))
    | .num n => .num n)

theorem applyOp_baseLen : ∀ (ops : List Step) (d d' : List Char),
    applyOp ops d = some d' → baseLen ops = d.length := by
  intro ops
  induction ops with
  | nil =>
      intro d d' h
      by_cases hd : d.isEmpty
      · simp [baseLen, List.isEmpty_iff.mp hd]
      · simp [applyOp, hd] at h
  | cons s rest ih =>
      intro d d' h
      cases s with
      | num n =>
          by_cases hn : 0 ≤ n
          · rw [applyOp, if_pos hn] at h
            by_cases hle : n.toNat ≤ d.length
            · rw [if_pos hle] at h
              cases hrec : applyOp rest (d.drop n.toNat) with
              | none => rw [hrec] at h; simp at h
              | some t =>
                  have := ih (d.drop n.toNat) t hrec
                  simp only [List.length_drop] at this
                  simp [baseLen, stepBaseLen, hn] at *
                  omega
            · rw [if_neg hle] at h; simp at h
          · rw [applyOp, if_neg hn] at h
            by_cases hle : (-n).toNat ≤ d.length
            · rw [if_pos hle] at h
              have := ih (d.drop (-n).toNat) d' h
              simp only [List.length_drop] at this
              simp [baseLen, stepBaseLen, hn] at *
              omega
            · rw [if_neg hle] at h; simp at h
      | str v =>
          rw [applyOp] at h
          cases hrec : applyOp rest d with
          | none => rw [hrec] at h; simp at h
          | some t =>
              have := ih d t hrec
              simp [baseLen, stepBaseLen] at *
              omega

theorem applyOp_targetLen : ∀ (ops : List Step) (d d' : List Char),
    applyOp ops d = some d' → d'.length = targetLen ops := by
  intro ops
  induction ops with
  | nil =>
      intro d d' h
      by_cases hd : d.isEmpty
      · simp only [applyOp, hd, if_true, Option.some.injEq] at h
        simp [← h, targetLen]
      · simp [applyOp, hd] at h
  | cons s rest ih =>
      intro d d' h
      cases s with
      | num n =>
          by_cases hn : 0 ≤ n
          · rw [applyOp, if_pos hn] at h
            by_cases hle : n.toNat ≤ d.length
            · rw [if_pos hle] at h
              cases hrec : applyOp rest (d.drop n.toNat) with
              | none => rw [hrec] at h; simp at h
              | some t =>
                  rw [hrec] at h
                  simp only [Option.map_some', Option.some.injEq] at h
                  have ht := ih (d.drop n.toNat) t hrec
                  have hT : targetLen (Step.num n :: rest) = n.toNat + targetLen rest := by
                    simp [targetLen, stepTargetLen, hn]
                  rw [← h, hT, List.length_append, List.length_take, ht]
                  omega
            · rw [if_neg hle] at h; simp at h
          · rw [applyOp, if_neg hn] at h
            by_cases hle : (-n).toNat ≤ d.length
            · rw [if_pos hle] at h
              have := ih (d.drop (-n).toNat) d' h
              simp [targetLen, stepTargetLen, hn] at *
              omega
            · rw [if_neg hle] at h; simp at h
      | str v =>
          rw [applyOp] at h
          cases hrec : applyOp rest d with
          | none => rw [hrec] at h; simp at h
          | some t =>
              rw [hrec] at h
              simp only [Option.map_some', Option.some.injEq] at h
              have := ih d t hrec
              subst h
              simp [targetLen, stepTargetLen] at *
              omega

theorem applyOp_isSome : ∀ (ops : List Step) (d : List Char),
    baseLen ops = d.length → ∃ d', applyOp ops d = some d' := by
  intro ops
  induction ops with
  | nil =>
      intro d h
      simp only [baseLen, List.map_nil, List.sum_nil] at h
      have : d = [] := by
        cases d with
        | nil => rfl
        | cons a l => simp at h
      subst this
      exact ⟨[], rfl⟩
  | cons s rest ih =>
      intro d h
      cases s with
      | num n =>
          by_cases hn : 0 ≤ n
          · have hb : n.toNat + baseLen rest = d.length := by
              simpa [baseLen, stepBaseLen, hn] using h
            have hle : n.toNat ≤ d.length := by omega
            obtain ⟨t, ht⟩ := ih (d.drop n.toNat)
              (by simp only [List.length_drop]; omega)
            exact ⟨d.take n.toNat ++ t, by rw [applyOp, if_pos hn, if_pos hle, ht]; rfl⟩
          · have hb : (-n).toNat + baseLen rest = d.length := by
              simpa [baseLen, stepBaseLen, hn] using h
            have hle : (-n).toNat ≤ d.length := by omega
            obtain ⟨t, ht⟩ := ih (d.drop (-n).toNat)
              (by simp only [List.length_drop]; omega)
            exact ⟨t, by rw [applyOp, if_neg hn, if_pos hle, ht]⟩
      | str v =>
          have hb : baseLen rest = d.length := by
            simpa [baseLen, stepBaseLen] using h
          obtain ⟨t, ht⟩ := ih d hb
          exact ⟨v ++ t, by rw [applyOp, ht]; rfl⟩

theorem baseLen_peerOps (src : Int) (ops : List Step) :
    baseLen (peerOps src ops) = baseLen ops := by
  induction ops with
  | nil => rfl
  | cons s rest ih =>
      cases s with
      | num n => simpa [peerOps, baseLen, stepBaseLen] using ih
      | str v => simpa [peerOps, baseLen, stepBaseLen] using ih

theorem targetLen_peerOps (src : Int) (ops : List Step) :
    targetLen (peerOps src ops) = targetLen ops := by
  induction ops with
  | nil => rfl
  | cons s rest ih =>
      cases s with
      | num n => simpa [peerOps, targetLen, stepTargetLen] using ih
      | str v => simpa [peerOps, targetLen, stepTargetLen] using ih

/-- **C5.** The peer-tag operation derived by `handle_operation` keeps
every integer step of the transformed op unchanged and replaces every
insert string by the author's tag repeated to the same length; hence if
the transformed op applies to the document and the annotation string had
the document's length, the derived operation applies to the annotation
string and yields a string of the new document's length. -/
theorem handle_operation_peer_tag_invariant (src : Int) (ops : List Step)
    (doc ptd doc' : List Char)
    (hlen : ptd.length = doc.length)
    (happ : applyOp ops doc = some doc') :
    (∀ (i : Nat) (n : Int), ops[i]? = some (Step.num n) →
      (peerOps src ops)[i]? = some (Step.num n)) ∧
    (∀ (i : Nat) (s : List Char), ops[i]? = some (Step.str s) →
      (peerOps src ops)[i]? = some (Step.str (List.replicate s.length (get_peer_char src)))) ∧
    ∃ ptd', applyOp (peerOps src ops) ptd = some ptd' ∧ ptd'.length = doc'.length := by
  refine ⟨?_, ?_, ?_⟩
  · intro i n hi
    simp only [peerOps, List.getElem?_map, hi]
    rfl
  · intro i s hi
    simp only [peerOps, List.getElem?_map, hi]
    rfl
  · have hbase : baseLen (peerOps src ops) = ptd.length := by
      rw [baseLen_peerOps, hlen]
      exact applyOp_baseLen ops doc doc' happ
    obtain ⟨ptd', hp⟩ := applyOp_isSome (peerOps src ops) ptd hbase
    refine ⟨ptd', hp, ?_⟩
    rw [applyOp_targetLen (peerOps src ops) ptd ptd' hp, targetLen_peerOps,
      ← applyOp_targetLen ops doc doc' happ]

/-- Witness for `handle_operation_peer_tag_invariant` at a concrete edit:
author 1 retains one character, inserts `"X"` and deletes one character of
the two-character document `"ab"`; the annotation `"pq"` is rewritten to a
two-character string, matching the new document `"aX"`. -/
theorem handle_operation_peer_tag_invariant_witness :
    ∃ ptd', applyOp (peerOps 1 [Step.num 1, Step.str ['X'], Step.num (-1)])
        ['p', 'q'] = some ptd' ∧
      ptd'.length = (['a', 'X'] : List Char).length :=
  (handle_operation_peer_tag_invariant 1 [Step.num 1, Step.str ['X'], Step.num (-1)]
    ['a', 'b'] ['p', 'q'] ['a', 'X'] rfl (by decide)).2.2

/-! ## Broadcast (`respond` / `remove_client`, claims C3 and C9)

Socket transmission is modelled by a `dead` predicate: `client.send`
raises `DeadClientError` exactly on the clients in `dead`. -/

/-- The fields of a queued message that `respond` inspects: the author id
`msg['src_id']` and the optional `reply` field (`'reply' in msg.data`). -/
structure MsgData where
  src_id : Int
  reply : Option Int
deriving DecidableEq

/-- The send condition of `respond` (`server.py:315`):
`(client.id != msg['src_id']) or ('reply' not in msg.data) or
(msg['reply'] == 1)`. -/
def sendAllowed (clientId : Int) (m : MsgData) : Bool :=
  (clientId != m.src_id) || m.reply.isNone || (m.reply == some 1)

/-- An observable transmission during a broadcast: either the queued
message itself relayed to a client, or a `MSG_REMOVE(removedId)`
notification sent by `remove_client`. -/
inductive SendEvent where
  | relay (clientId : Int) (m : MsgData)
  | removeMsg (clientId : Int) (removedId : Int)
deriving DecidableEq

/-- Outcome of a broadcast: the final server state, the transmissions that
happened (in order), and whether an uncaught `DeadClientError`
propagated. -/
structure BroadcastResult where
  state : ServerState
  events : List SendEvent
  raised : Bool
deriving DecidableEq

/-- The notification loop of `remove_client` (`server.py:339-341`): send
`MSG_REMOVE(cid)` to each remaining client; a send to a dead client raises
`DeadClientError`, which nothing in `remove_client` catches, aborting the
loop. -/
def removeLoop (dead : Int → Bool) (cid : Int) : List Client → List SendEvent × Bool
  | [] => ([], false)
  | c :: rest =>
      if dead c.id then ([], true)
      else
        let r := removeLoop dead cid rest
        (SendEvent.removeMsg c.id cid :: r.1, r.2)

/-- `TroopServer.remove_client` (`server.py:329-343`): delete the id from
the registry, then notify every remaining client with `MSG_REMOVE`. -/
def remove_client (st : ServerState) (dead : Int → Bool) (cid : Int) : BroadcastResult :=
  let st' := { st with clients := dictErase st.clients cid }
  let r := removeLoop dead cid (dictValues st'.clients)
  ⟨st', r.1, r.2⟩

/-- The loop of `respond` (`server.py:309-326`) over the snapshot
`list(self.clients.values())` taken when the broadcast starts.  For each
client passing the send condition, transmit; a `DeadClientError` from that
transmit is caught and handled by `remove_client` (whose own sends may
raise uncaught), after which the loop continues. -/
def respondLoop (dead : Int → Bool) (m : MsgData) :
    List Client → ServerState → BroadcastResult
  | [], st => ⟨st, [], false⟩
  | c :: rest, st =>
      if sendAllowed c.id m then
        if dead c.id then
          let r := remove_client st dead c.id
          if r.raised then ⟨r.state, r.events, true⟩
          else
            let r2 := respondLoop dead m rest r.state
            ⟨r2.state, r.events ++ r2.events, r2.raised⟩
        else
          let r2 := respondLoop dead m rest st
          ⟨r2.state, SendEvent.relay c.id m :: r2.events, r2.raised⟩
      else
        respondLoop dead m rest st

/-- `TroopServer.respond` (`server.py:305-327`). -/
def respond (st : ServerState) (dead : Int → Bool) (m : MsgData) : BroadcastResult :=
  respondLoop dead m (dictValues st.clients) st

/-! ## Connection handler dispatch (`handle`, claims C2, C8, C10) -/

/-- An inbound message as classified by the `handle` loop
(`server.py:487-513`): a `MSG_CONNECT`, a `MSG_CONNECT_ACK`, or anything
else (carrying the fields `respond` would inspect). -/
inductive InMsg where
  | connect (src_id : Int) (name : String)
  | connectAck (src_id : Int)
  | plain (m : MsgData)
deriving DecidableEq

/-- An outbound message sent by the connect-handshake path. -/
inductive OutMsg where
  | connectInfo (id : Int) (name : String) (hostname : String) (port : Nat)
  | requestAck
  | reset (doc : List Char) (ranges : List (Int × Nat)) (locs : List (Int × Int))
deriving DecidableEq

/-- An observable effect of the `handle` loop processing one message. -/
inductive HEvent where
  | sent (clientId : Int) (msg : OutMsg)
  | enqueued (m : InMsg)
  | historyCleared
deriving DecidableEq

/-- `TroopServer.get_client_locs` (`server.py:152-153`): each client's id
paired with its cursor index. -/
def get_client_locs (st : ServerState) : List (Int × Int) :=
  (dictValues st.clients).map (fun c => (c.id, c.index))

/-- `TroopRequestHandler.connect_clients` (`server.py:517-546`): store the
new client, then for every registered client send it the newcomer's
`MSG_CONNECT`, send the newcomer every *other* client's `MSG_CONNECT`
(the comparison `client != self.client_address` is by address), and send
`MSG_REQUEST_ACK`. -/
def connect_clients (st : ServerState) (addr : String × Nat) (new : Client) :
    ServerState × List HEvent :=
  let st' := { st with clients := dictInsert st.clients new.id new }
  let evs := (dictValues st'.clients).flatMap (fun c =>
    [HEvent.sent c.id (OutMsg.connectInfo new.id new.name new.hostname new.port)] ++
    (if c.address ≠ addr then
      [HEvent.sent new.id (OutMsg.connectInfo c.id c.name c.hostname c.port)]
    else []) ++
    [HEvent.sent c.id OutMsg.requestAck])
  (st', evs)

/-- `TroopRequestHandler.handle_connect` (`server.py:429-441`): if no
registered client already has the sender's address, raise the
acknowledgement barrier, create the client (with the id allocated at
authentication) and run `connect_clients`; otherwise do nothing and
return no client. -/
def handle_connect (st : ServerState) (addr : String × Nat) (handlerId : Int)
    (name : String) : ServerState × List HEvent × Option Client :=
  if (dictValues st.clients).any (fun c => c.address == addr) then
    (st, [], none)
  else
    let st1 := wait_for_ack st
    let new := Client.make addr handlerId name
    let r := connect_clients st1 addr new
    (r.1, r.2, some new)

/-- `TroopRequestHandler.update_all_clients` (`server.py:556-567`): send a
`MSG_RESET` carrying the server contents to every registered client. -/
def update_all_clients (st : ServerState) : List HEvent :=
  let msg := OutMsg.reset st.document (get_client_ranges st.peer_tag_doc)
    (get_client_locs st)
  (dictValues st.clients).map (fun c => HEvent.sent c.id msg)

/-- One iteration of the message dispatch in `TroopRequestHandler.handle`
(`server.py:487-513`): a `MSG_CONNECT` runs `handle_connect`, then
`update_all_clients`, then `clear_history`; while `waiting_for_ack`, a
`MSG_CONNECT_ACK` is recorded and anything else is dropped silently;
otherwise the message is enqueued for the dispatch loop. -/
def handleMsg (st : ServerState) (addr : String × Nat) (handlerId : Int)
    (msg : InMsg) : ServerState × List HEvent :=
  match msg with
  | .connect _ name =>
      let r := handle_connect st addr handlerId name
      let evs2 := update_all_clients r.1
      let st2 := clear_history r.1
      (st2, r.2.1 ++ evs2 ++ [HEvent.historyCleared])
  | .connectAck src =>
      if st.waiting_for_ack then (connect_ack st src, [])
      else (st, [HEvent.enqueued (InMsg.connectAck src)])
  | .plain m =>
      if st.waiting_for_ack then (st, [])
      else (st, [HEvent.enqueued (InMsg.plain m)])

/-- The transmissions a failure-free broadcast of `m` produces on a list
of clients: one relay per client passing the send condition. -/
def relayEvents (m : MsgData) (l : List Client) : List SendEvent :=
  l.filterMap (fun c => if sendAllowed c.id m then some (SendEvent.relay c.id m) else none)

/-- Whether a transmission is a `MSG_REMOVE` notification. -/
def isRemoveEvent : SendEvent → Bool
  | .removeMsg _ _ => true
  | .relay _ _ => false

theorem respondLoop_no_dead (dead : Int → Bool) (m : MsgData) :
    ∀ (l : List Client) (st : ServerState), (∀ c ∈ l, dead c.id = false) →
      respondLoop dead m l st = ⟨st, relayEvents m l, false⟩ := by
  intro l
  induction l with
  | nil => intro st _; rfl
  | cons c rest ih =>
      intro st h
      have hc : dead c.id = false := h c (by simp)
      have hr : ∀ x ∈ rest, dead x.id = false := fun x hx => h x (by simp [hx])
      by_cases hs : sendAllowed c.id m = true
      · rw [respondLoop, if_pos hs, if_neg (by simp [hc]), ih st hr]
        simp [relayEvents, hs]
      · rw [respondLoop, if_neg hs, ih st hr]
        simp only [relayEvents, List.filterMap_cons]
        rw [if_neg hs]

theorem respondLoop_append_no_dead (dead : Int → Bool) (m : MsgData) :
    ∀ (l1 l2 : List Client) (st : ServerState), (∀ c ∈ l1, dead c.id = false) →
      respondLoop dead m (l1 ++ l2) st =
        ⟨(respondLoop dead m l2 st).state,
         relayEvents m l1 ++ (respondLoop dead m l2 st).events,
         (respondLoop dead m l2 st).raised⟩ := by
  intro l1
  induction l1 with
  | nil => intro l2 st _; simp [relayEvents]
  | cons c rest ih =>
      intro l2 st h
      have hc : dead c.id = false := h c (by simp)
      have hr : ∀ x ∈ rest, dead x.id = false := fun x hx => h x (by simp [hx])
      by_cases hs : sendAllowed c.id m = true
      · rw [List.cons_append, respondLoop, if_pos hs, if_neg (by simp [hc]),
          ih l2 st hr]
        simp [relayEvents, hs]
      · rw [List.cons_append, respondLoop, if_neg hs, ih l2 st hr]
        simp only [relayEvents, List.filterMap_cons]
        rw [if_neg hs]

theorem removeLoop_no_dead (dead : Int → Bool) (cid : Int) :
    ∀ (l : List Client), (∀ c ∈ l, dead c.id = false) →
      removeLoop dead cid l = (l.map (fun c => SendEvent.removeMsg c.id cid), false) := by
  intro l
  induction l with
  | nil => intro _; rfl
  | cons c rest ih =>
      intro h
      have hc : dead c.id = false := h c (by simp)
      have hr : ∀ x ∈ rest, dead x.id = false := fun x hx => h x (by simp [hx])
      rw [removeLoop, if_neg (by simp [hc]), ih hr]
      rfl

/-- **C3** (amended).  With every transmit succeeding, `respond` leaves
the state unchanged, raises nothing, and transmits `m` to exactly the
registered clients `c` (in registry order) with `c.id ≠ m.src_id`, or
with the reply field absent, or with reply equal to 1 — i.e. a client is
skipped only when it authored the message *and* the message carries a
reply field different from 1. -/
theorem respond_reply_policy (st : ServerState) (m : MsgData) :
    (respond st (fun _ => false) m).state = st ∧
    (respond st (fun _ => false) m).raised = false ∧
    (respond st (fun _ => false) m).events =
      (dictValues st.clients).filterMap (fun c =>
        if c.id ≠ m.src_id ∨ m.reply = none ∨ m.reply = some 1 then
          some (SendEvent.relay c.id m)
        else none) := by
  have h := respondLoop_no_dead (fun _ => false) m (dictValues st.clients) st
    (fun _ _ => rfl)
  have hcond : ∀ cid : Int,
      (sendAllowed cid m = true) ↔ (cid ≠ m.src_id ∨ m.reply = none ∨ m.reply = some 1) := by
    intro cid
    simp [sendAllowed, Bool.or_eq_true, bne_iff_ne, Option.isNone_iff_eq_none,
      or_assoc]
  refine ⟨by rw [respond, h], by rw [respond, h], ?_⟩
  rw [respond, h]
  show relayEvents m (dictValues st.clients) = _
  unfold relayEvents
  congr 1
  funext c
  exact if_congr (hcond c.id) rfl rfl

/-- The single registered client of `echoState`, with id 0. -/
def echoClient : Client := Client.make ("h", 1) 0 "a"

/-- A server state whose registry holds exactly `echoClient`. -/
def echoState : ServerState :=
  { document := [], peer_tag_doc := [], backend := [],
    clients := [(0, echoClient)], waiting_for_ack := false,
    acknowledged_clients := [], last_id := 0, max_id := 3,
    password_digest := "d" }

/-- Counterexample to **C3** as stated: a broadcast of a message authored
by client 0 with *no* reply field transmits it back to its author — the
source condition `'reply' not in msg.data` (`server.py:315`) permits the
send, whereas the claim (absent reply counts as 0, hence never echoed)
requires the author to be skipped. -/
theorem respond_echoes_absent_reply :
    (respond echoState (fun _ => false) ⟨0, none⟩).events =
      [SendEvent.relay 0 ⟨0, none⟩] ∧
    echoClient.id = (MsgData.mk 0 none).src_id ∧
    (MsgData.mk 0 none).reply = none := by
  exact ⟨rfl, rfl, rfl⟩

theorem filter_isRemoveEvent_relayEvents (m : MsgData) (l : List Client) :
    (relayEvents m l).filter isRemoveEvent = [] := by
  rw [List.filter_eq_nil_iff]
  intro e he
  obtain ⟨c, _, hce⟩ := List.mem_filterMap.mp he
  by_cases hs : sendAllowed c.id m = true
  · rw [if_pos hs] at hce
    simp only [Option.some.injEq] at hce
    subst hce
    simp [isRemoveEvent]
  · rw [if_neg hs] at hce
    exact absurd hce (by simp)

theorem filter_isRemoveEvent_removeMsgs (cid : Int) (l : List Client) :
    (l.map (fun c => SendEvent.removeMsg c.id cid)).filter isRemoveEvent =
      l.map (fun c => SendEvent.removeMsg c.id cid) := by
  rw [List.filter_eq_self]
  intro e he
  obtain ⟨c, _, hce⟩ := List.mem_map.mp he
  subst hce
  simp [isRemoveEvent]

/-- **C9** (amended).  If, during a broadcast, the *only* dead client is
the registered client with id `cid` (occurring once in the registry, keys
coherent with client ids) and the send condition lets the broadcast reach
it, then: no exception escapes `respond`, the dead client is removed from
the registry, the `MSG_REMOVE(cid)` transmissions are exactly one per
surviving registered client (in registry order), and every other
registered client passing the send condition still receives the broadcast
message.  The only-dead proviso is necessary: when a survivor's
`MSG_REMOVE` send fails too, the `DeadClientError` raised inside
`remove_client` is caught nowhere and aborts the broadcast. -/
theorem respond_dead_client_evicted (st : ServerState) (m : MsgData) (cid : Int)
    (pre post : List (Int × Client)) (cdead : Client)
    (hsplit : st.clients = pre ++ (cid, cdead) :: post)
    (hid : cdead.id = cid)
    (hkeys : ∀ p ∈ st.clients, (p.2).id = p.1)
    (hnodup : (st.clients.map Prod.fst).Nodup)
    (hallow : sendAllowed cid m = true) :
    (respond st (fun i => i == cid) m).raised = false ∧
    (respond st (fun i => i == cid) m).state.clients = dictErase st.clients cid ∧
    (respond st (fun i => i == cid) m).events.filter isRemoveEvent =
      (dictValues (dictErase st.clients cid)).map
        (fun c => SendEvent.removeMsg c.id cid) ∧
    (∀ c ∈ dictValues st.clients, c.id ≠ cid → sendAllowed c.id m = true →
      SendEvent.relay c.id m ∈ (respond st (fun i => i == cid) m).events) := by
  subst hid
  rw [hsplit, List.map_append, List.map_cons] at hnodup
  have hdisj := List.disjoint_of_nodup_append hnodup
  have hnotpre : ∀ p ∈ pre, p.1 ≠ cdead.id := by
    intro p hp hcontra
    exact hdisj (List.mem_map_of_mem Prod.fst hp)
      (by rw [hcontra]; exact List.mem_cons_self _ _)
  have hnotpost : ∀ p ∈ post, p.1 ≠ cdead.id := by
    intro p hp hcontra
    have h2 := (List.nodup_cons.mp hnodup.of_append_right).1
    exact h2 (show cdead.id ∈ _ by
      rw [← hcontra]; exact List.mem_map_of_mem Prod.fst hp)
  have hvalpre : ∀ c ∈ dictValues pre, (fun i : Int => i == cdead.id) c.id = false := by
    intro c hc
    obtain ⟨p, hp, hpc⟩ := List.mem_map.mp hc
    have hcid : c.id = p.1 := by
      rw [← hpc]; exact hkeys p (by rw [hsplit]; exact List.mem_append_left _ hp)
    simp only [beq_eq_false_iff_ne, ne_eq, hcid]
    exact hnotpre p hp
  have hvalpost : ∀ c ∈ dictValues post, (fun i : Int => i == cdead.id) c.id = false := by
    intro c hc
    obtain ⟨p, hp, hpc⟩ := List.mem_map.mp hc
    have hcid : c.id = p.1 := by
      rw [← hpc]
      exact hkeys p (by rw [hsplit]; exact List.mem_append_right _ (List.mem_cons_of_mem _ hp))
    simp only [beq_eq_false_iff_ne, ne_eq, hcid]
    exact hnotpost p hp
  have herase : dictErase st.clients cdead.id = pre ++ post := by
    have h1 : List.filter (fun p => p.1 != cdead.id) pre = pre :=
      List.filter_eq_self.mpr (fun p hp => by simpa using hnotpre p hp)
    have h2 : List.filter (fun p => p.1 != cdead.id) post = post :=
      List.filter_eq_self.mpr (fun p hp => by simpa using hnotpost p hp)
    simp [dictErase, hsplit, List.filter_append, List.filter_cons, h1, h2]
  have hvapp : dictValues (pre ++ post) = dictValues pre ++ dictValues post := by
    simp [dictValues]
  have hvalerase : ∀ c ∈ dictValues (pre ++ post),
      (fun i : Int => i == cdead.id) c.id = false := by
    intro c hc
    rw [hvapp] at hc
    rcases List.mem_append.mp hc with h | h
    · exact hvalpre c h
    · exact hvalpost c h
  have hvals : dictValues st.clients = dictValues pre ++ cdead :: dictValues post := by
    simp [dictValues, hsplit]
  have hrc : remove_client st (fun i : Int => i == cdead.id) cdead.id =
      ⟨{ st with clients := pre ++ post },
       (dictValues (pre ++ post)).map (fun c => SendEvent.removeMsg c.id cdead.id),
       false⟩ := by
    unfold remove_client
    simp only [herase]
    rw [removeLoop_no_dead _ _ _ hvalerase]
  have hhead : respondLoop (fun i : Int => i == cdead.id) m (cdead :: dictValues post) st =
      ⟨{ st with clients := pre ++ post },
       (dictValues (pre ++ post)).map (fun c => SendEvent.removeMsg c.id cdead.id) ++
         relayEvents m (dictValues post),
       false⟩ := by
    rw [respondLoop, if_pos hallow, if_pos (by simp)]
    simp only [hrc]
    rw [respondLoop_no_dead _ _ _ _ hvalpost]
    simp
  have hmain : respond st (fun i : Int => i == cdead.id) m =
      ⟨{ st with clients := pre ++ post },
       relayEvents m (dictValues pre) ++
         ((dictValues (pre ++ post)).map (fun c => SendEvent.removeMsg c.id cdead.id) ++
           relayEvents m (dictValues post)),
       false⟩ := by
    rw [respond, hvals, respondLoop_append_no_dead _ _ _ _ _ hvalpre, hhead]
  refine ⟨by rw [hmain], by rw [hmain, herase], ?_, ?_⟩
  · rw [hmain, herase]
    simp only [List.filter_append, filter_isRemoveEvent_relayEvents,
      filter_isRemoveEvent_removeMsgs, List.nil_append, List.append_nil]
  · intro c hc hne hs
    rw [hmain]
    rcases List.mem_append.mp (hvals ▸ hc) with h | h
    · exact List.mem_append_left _
        (List.mem_filterMap.mpr ⟨c, h, by rw [if_pos hs]⟩)
    · rcases List.mem_cons.mp h with h | h
      · exact absurd (by rw [h]) hne
      · exact List.mem_append_right _ (List.mem_append_right _
          (List.mem_filterMap.mpr ⟨c, h, by rw [if_pos hs]⟩))

/-- Three clients used in the eviction witness. -/
def evC0 : Client := Client.make ("h0", 1) 0 "a"

def evC1 : Client := Client.make ("h1", 1) 1 "b"

def evC2 : Client := Client.make ("h2", 1) 2 "c"

/-- A server state with three registered clients, ids 0, 1 and 2. -/
def evState : ServerState :=
  { document := [], peer_tag_doc := [], backend := [],
    clients := [(0, evC0), (1, evC1), (2, evC2)], waiting_for_ack := false,
    acknowledged_clients := [], last_id := 2, max_id := 3,
    password_digest := "d" }

/-- Witness for `respond_dead_client_evicted`: broadcasting a server
message while client 1 is dead evicts it and raises nothing. -/
theorem respond_dead_client_evicted_witness :
    (respond evState (fun i => i == 1) ⟨5, none⟩).raised = false ∧
    (respond evState (fun i => i == 1) ⟨5, none⟩).state.clients =
      dictErase evState.clients 1 := by
  have h := respond_dead_client_evicted evState ⟨5, none⟩ 1 [(0, evC0)] [(2, evC2)]
    evC1 rfl rfl (by decide) (by decide) rfl
  exact ⟨h.1, h.2.1⟩

/-- Counterexample to **C9** as stated: with clients 1 and 2 both dead,
the broadcast reaches client 1, whose transmit raises `DeadClientError`;
`remove_client` evicts it but, while notifying the survivors, the
`MSG_REMOVE(1)` send to the (also dead) client 2 raises in turn, and
nothing in `remove_client` or `respond` catches it (`server.py:319-341`;
the dispatch worker `update_send` at `server.py:279-301` catches only
`queue.Empty`).  So for the failing client 1: the surviving registered
client 2 is never sent `REMOVE(1)`, the broadcast does not continue to
client 2, and the exception escapes `respond` — the failure is not
confined to that peer. -/
theorem respond_multi_dead_aborts :
    sendAllowed evC1.id ⟨5, none⟩ = true ∧
    (fun i : Int => i == 1 || i == 2) evC1.id = true ∧
    (respond evState (fun i => i == 1 || i == 2) ⟨5, none⟩).raised = true ∧
    (2, evC2) ∈
      (respond evState (fun i => i == 1 || i == 2) ⟨5, none⟩).state.clients ∧
    SendEvent.removeMsg 2 1 ∉
      (respond evState (fun i => i == 1 || i == 2) ⟨5, none⟩).events ∧
    SendEvent.relay 2 ⟨5, none⟩ ∉
      (respond evState (fun i => i == 1 || i == 2) ⟨5, none⟩).events := by
  refine ⟨rfl, rfl, rfl, by decide, by decide, by decide⟩

/-- **C8.** While the acknowledgement barrier is up (`waiting_for_ack`),
the `handle` loop silently drops every inbound message that is neither a
`MSG_CONNECT` nor a `MSG_CONNECT_ACK`: the server state is untouched and
no effect at all is produced — in particular nothing is enqueued to the
dispatch queue and nothing is transmitted. -/
theorem waiting_for_ack_drops (st : ServerState) (addr : String × Nat)
    (handlerId : Int) (m : MsgData) (h : st.waiting_for_ack = true) :
    handleMsg st addr handlerId (InMsg.plain m) = (st, []) := by
  simp [handleMsg, h]

/-- Witness for `waiting_for_ack_drops`: a concrete non-ack message
arriving at a state with the barrier up vanishes without a trace. -/
theorem waiting_for_ack_drops_witness :
    handleMsg ackState ("z", 9) 7 (InMsg.plain ⟨0, none⟩) = (ackState, []) :=
  waiting_for_ack_drops ackState ("z", 9) 7 ⟨0, none⟩ rfl

/-- **C10.** When a `MSG_CONNECT` arrives from an address already present
in the registry, `handle_connect` admits nobody and returns no client:
registry, barrier flag and acknowledged list are unchanged — yet the
surrounding handler still broadcasts the `RESET` baseline to every
registered client and clears the revision history. -/
theorem handle_connect_duplicate_address (st : ServerState) (addr : String × Nat)
    (handlerId : Int) (src : Int) (name : String)
    (haddr : (dictValues st.clients).any (fun c => c.address == addr) = true) :
    handle_connect st addr handlerId name = (st, [], none) ∧
    (handleMsg st addr handlerId (InMsg.connect src name)).1.clients = st.clients ∧
    (handleMsg st addr handlerId (InMsg.connect src name)).1.waiting_for_ack =
      st.waiting_for_ack ∧
    (handleMsg st addr handlerId (InMsg.connect src name)).1.acknowledged_clients =
      st.acknowledged_clients ∧
    (handleMsg st addr handlerId (InMsg.connect src name)).1.backend = [] ∧
    (handleMsg st addr handlerId (InMsg.connect src name)).2 =
      update_all_clients st ++ [HEvent.historyCleared] ∧
    (∀ c ∈ dictValues st.clients,
      HEvent.sent c.id (OutMsg.reset st.document
          (get_client_ranges st.peer_tag_doc) (get_client_locs st)) ∈
        (handleMsg st addr handlerId (InMsg.connect src name)).2) := by
  have h1 : handle_connect st addr handlerId name = (st, [], none) := by
    rw [handle_connect, if_pos haddr]
  have h2 : handleMsg st addr handlerId (InMsg.connect src name) =
      (clear_history st, update_all_clients st ++ [HEvent.historyCleared]) := by
    show (let r := handle_connect st addr handlerId name
          let evs2 := update_all_clients r.1
          let st2 := clear_history r.1
          (st2, r.2.1 ++ evs2 ++ [HEvent.historyCleared])) = _
    rw [h1]
    simp
  refine ⟨h1, by rw [h2]; rfl, by rw [h2]; rfl, by rw [h2]; rfl, by rw [h2]; rfl,
    by rw [h2], ?_⟩
  intro c hc
  rw [h2]
  refine List.mem_append_left _ ?_
  exact List.mem_map.mpr ⟨c, hc, rfl⟩

/-- Witness for `handle_connect_duplicate_address`: a connect from the
address of the already-registered `echoClient` changes no registry state
but still resets the history. -/
theorem handle_connect_duplicate_address_witness :
    handle_connect echoState ("h", 1) 3 "b" = (echoState, [], none) ∧
    (handleMsg echoState ("h", 1) 3 (InMsg.connect 3 "b")).1.clients =
      echoState.clients := by
  have h := handle_connect_duplicate_address echoState ("h", 1) 3 3 "b" (by decide)
  exact ⟨h.1, h.2.1⟩

/-- **C2** (amended).  Processing a `MSG_CONNECT` resets the revision
backend to a fresh empty one (revision 0) while leaving the document and
the peer-annotation string unchanged, and the history reset is the *last*
step, performed after the `RESET(document, annotation_rle, cursors)`
baseline has been sent to every client of the post-handshake registry. -/
theorem handleMsg_connect_resets_history (st : ServerState) (addr : String × Nat)
    (handlerId : Int) (src : Int) (name : String) :
    (handleMsg st addr handlerId (InMsg.connect src name)).1.backend = [] ∧
    (handleMsg st addr handlerId (InMsg.connect src name)).1.document = st.document ∧
    (handleMsg st addr handlerId (InMsg.connect src name)).1.peer_tag_doc =
      st.peer_tag_doc ∧
    (handleMsg st addr handlerId (InMsg.connect src name)).2 =
      (handle_connect st addr handlerId name).2.1 ++
        update_all_clients (handle_connect st addr handlerId name).1 ++
        [HEvent.historyCleared] ∧
    (∀ c ∈ dictValues (handle_connect st addr handlerId name).1.clients,
      HEvent.sent c.id (OutMsg.reset (handle_connect st addr handlerId name).1.document
          (get_client_ranges (handle_connect st addr handlerId name).1.peer_tag_doc)
          (get_client_locs (handle_connect st addr handlerId name).1)) ∈
        update_all_clients (handle_connect st addr handlerId name).1) := by
  have hdoc : (handle_connect st addr handlerId name).1.document = st.document ∧
      (handle_connect st addr handlerId name).1.peer_tag_doc = st.peer_tag_doc := by
    rw [handle_connect]
    by_cases h : (dictValues st.clients).any (fun c => c.address == addr) = true
    · rw [if_pos h]
      exact ⟨rfl, rfl⟩
    · rw [if_neg h]
      exact ⟨rfl, rfl⟩
  have hstep : handleMsg st addr handlerId (InMsg.connect src name) =
      (clear_history (handle_connect st addr handlerId name).1,
       (handle_connect st addr handlerId name).2.1 ++
         update_all_clients (handle_connect st addr handlerId name).1 ++
         [HEvent.historyCleared]) := rfl
  refine ⟨by rw [hstep]; rfl, ?_, ?_, by rw [hstep], ?_⟩
  · rw [hstep]
    exact hdoc.1
  · rw [hstep]
    exact hdoc.2
  · intro c hc
    exact List.mem_map.mpr ⟨c, hc, rfl⟩

/-- A state with a nonempty document (`"a"`), annotation (`"x"`), a
one-entry revision history and one registered client. -/
def busyState : ServerState :=
  { document := ['a'], peer_tag_doc := ['x'], backend := [[Step.str ['a']]],
    clients := [(0, echoClient)], waiting_for_ack := false,
    acknowledged_clients := [], last_id := 0, max_id := 3,
    password_digest := "d" }

/-- Counterexample to **C2** as stated: admitting a new peer leaves the
document and peer-annotation untouched (not cleared to empty), and the
history reset is the last effect of the handler, *after* the `RESET`
baseline has been sent to the peers, not before. -/
theorem handleMsg_connect_document_not_cleared :
    (handleMsg busyState ("h2", 2) 1 (InMsg.connect 1 "b")).1.document = ['a'] ∧
    (handleMsg busyState ("h2", 2) 1 (InMsg.connect 1 "b")).1.peer_tag_doc = ['x'] ∧
    busyState.backend ≠ [] ∧
    (handleMsg busyState ("h2", 2) 1 (InMsg.connect 1 "b")).2.getLast? =
      some HEvent.historyCleared ∧
    (handleMsg busyState ("h2", 2) 1 (InMsg.connect 1 "b")).2.count
      HEvent.historyCleared = 1 ∧
    HEvent.sent 0 (OutMsg.reset ['a'] (get_client_ranges ['x'])
        [(0, 0), (1, 0)]) ∈
      (handleMsg busyState ("h2", 2) 1 (InMsg.connect 1 "b")).2 := by
  refine ⟨rfl, rfl, by decide, by decide, by decide, by decide⟩

end Troop
